import Mathlib

/-!
# Verification of `sum_array_cpp` (src/sum_array.cpp)

The kernel sums a numeric vector with four-way loop unrolling.  It is embedded
here over an arbitrary element type `α` carrying an addition and a zero, so
that statements which hold for any addition (grouping, index coverage) are
proved once, and statements that need more (exactness, identity, absorption)
name what they need.  A bit-level model of binary64 addition (`F64`) is used
where a claim is about double precision itself.

Indices have type `R_xlen_t` (signed 64 bit) in the source.  Every index the
kernel computes lies in `0..n` where `n = x.size()`, so no index arithmetic can
wrap and indices are natural numbers here.
-/

namespace SumArray

/-! ## The kernel -/

/-- Ways in which a run of the embedded kernel can fail to return a value. -/
inductive Fault where
  /-- an element read `x[i]` with `i` outside `0..n-1` -/
  | out_of_bounds (i : Nat)
  /-- the iteration budget of a loop was used up before its guard failed -/
  | out_of_fuel
  deriving DecidableEq, Repr

/-- The five running accumulators of the kernel. -/
inductive Slot where
  | sum0
  | sum1
  | sum2
  | sum3
  | remainder
  deriving DecidableEq, Repr

deriving instance DecidableEq for Except

/-- Element read `x[i]`: the element when `i` is in `0..n-1`, a fault otherwise. -/
def read {α : Type} (x : List α) (i : Nat) : Except Fault α :=
  match x[i]? with
  | some v => .ok v
  | none => .error (.out_of_bounds i)

/-- Locals live during the unrolled loop (lines 15-26): the index `i`, the four
accumulators, and two ghost fields: the element reads performed so far, in
order, each with the accumulator it was added into, and the number of loop
iterations performed. -/
structure Unrolled (α : Type) where
  i : Nat
  sum0 : α
  sum1 : α
  sum2 : α
  sum3 : α
  reads : List (Nat × Slot)
  iters : Nat
  deriving DecidableEq, Repr

/-- Locals live during the remainder loop (lines 29-32): the index `i`, the
`remainder` accumulator, and the same two ghost fields, for this loop only. -/
structure Tail (α : Type) where
  i : Nat
  remainder : α
  reads : List (Nat × Slot)
  iters : Nat
  deriving DecidableEq, Repr

/-- Line 18: `R_xlen_t n_unrolled = n - (n % 4);`. -/
def n_unrolled (n : Nat) : Nat := n - n % 4

/-- Lines 21-26: `for (; i < n_unrolled; i += 4) { sum0 += x[i]; sum1 += x[i + 1];
sum2 += x[i + 2]; sum3 += x[i + 3]; }`.  The first argument bounds the number
of iterations. -/
def unrolled_loop {α : Type} [Add α] (x : List α) (n_unrolled : Nat) :
    Nat → Unrolled α → Except Fault (Unrolled α)
  | fuel, s =>
    if s.i < n_unrolled then
      match fuel with
      | 0 => .error .out_of_fuel
      | fuel + 1 =>
        match read x s.i with
        | .error f => .error f
        | .ok a =>
        match read x (s.i + 1) with
        | .error f => .error f
        | .ok b =>
        match read x (s.i + 2) with
        | .error f => .error f
        | .ok c =>
        match read x (s.i + 3) with
        | .error f => .error f
        | .ok d =>
          unrolled_loop x n_unrolled fuel
            { i := s.i + 4
              sum0 := s.sum0 + a
              sum1 := s.sum1 + b
              sum2 := s.sum2 + c
              sum3 := s.sum3 + d
              reads := s.reads ++
                [(s.i, .sum0), (s.i + 1, .sum1), (s.i + 2, .sum2), (s.i + 3, .sum3)]
              iters := s.iters + 1 }
    else .ok s

/-- Lines 30-32: `for (; i < n; i++) { remainder += x[i]; }`.  The first
argument bounds the number of iterations. -/
def remainder_loop {α : Type} [Add α] (x : List α) (n : Nat) :
    Nat → Tail α → Except Fault (Tail α)
  | fuel, t =>
    if t.i < n then
      match fuel with
      | 0 => .error .out_of_fuel
      | fuel + 1 =>
        match read x t.i with
        | .error f => .error f
        | .ok a =>
          remainder_loop x n fuel
            { i := t.i + 1
              remainder := t.remainder + a
              reads := t.reads ++ [(t.i, .remainder)]
              iters := t.iters + 1 }
    else .ok t

/-- How a call left the function: through the early return of line 13, or
through the return of line 34 with the final locals of both loops. -/
inductive Exit (α : Type) where
  | early (value : α)
  | full (u : Unrolled α) (t : Tail α) (value : α)
  deriving DecidableEq, Repr

/-- The value a call returned. -/
def Exit.value {α : Type} : Exit α → α
  | .early v => v
  | .full _ _ v => v

/-- The body of `sum_array_cpp` (lines 11-34), keeping the final locals: the
early return of line 13, the two loops, and the return of line 34 with its
left-to-right additions.  Both loops are given `n` iterations of budget. -/
def run {α : Type} [Add α] [Zero α] (x : List α) : Except Fault (Exit α) :=
  let n := x.length
  if n = 0 then .ok (.early 0)
  else
    match unrolled_loop x (n_unrolled n) n
        { i := 0, sum0 := 0, sum1 := 0, sum2 := 0, sum3 := 0, reads := [], iters := 0 } with
    | .error f => .error f
    | .ok u =>
      match remainder_loop x n n { i := u.i, remainder := 0, reads := [], iters := 0 } with
      | .error f => .error f
      | .ok t => .ok (.full u t (u.sum0 + u.sum1 + u.sum2 + u.sum3 + t.remainder))

/-- Lines 10-35: `double sum_array_cpp(NumericVector x)`, the value returned. -/
def sum_array_cpp {α : Type} [Add α] [Zero α] (x : List α) : Except Fault α :=
  match run x with
  | .error f => .error f
  | .ok e => .ok e.value

/-! ## Binary64 addition

`double` values and the `+` the compiled kernel applies to them: IEEE-754
binary64 with the default rounding (to nearest, ties to even). -/

/-- A binary64 datum.  `finite neg m e` is the number `(-1)^neg * m * 2^e`
with `m < 2^53` and `-1074 ≤ e ≤ 971`, and `2^52 ≤ m` unless `e = -1074`
(zeros and subnormals): `m` is the significand with its leading bit and
`e + 1075` the biased exponent field.  All NaNs are identified. -/
inductive F64 where
  | finite (neg : Bool) (m : Nat) (e : Int)
  | inf (neg : Bool)
  | nan
  deriving DecidableEq, Repr

namespace F64

/-- Binary digits of `M`, counted by dropping 64 low digits at a time while
there are more than 64 and then one at a time, in at most `fuel` steps. -/
def bits_aux : Nat → Nat → Nat
  | 0, _ => 0
  | fuel + 1, M =>
    if M = 0 then 0
    else if 2 ^ 64 ≤ M then bits_aux fuel (M / 2 ^ 64) + 64
    else bits_aux fuel (M / 2) + 1

/-- Number of binary digits of `M`: the least `L` with `M < 2^L`. -/
def bits (M : Nat) : Nat := bits_aux M M

/-- A significand and exponent in range, or an infinity when the exponent is
above the largest one of the format. -/
def pack (neg : Bool) (m : Nat) (e : Int) : F64 :=
  if 971 < e then .inf neg else .finite neg m e

/-- Rounding of the exact number `(-1)^neg * M * 2^e` to binary64, to nearest
with ties to even.  The result keeps 53 significant bits, fewer below the
smallest normal exponent. -/
def round (neg : Bool) (M : Nat) (e : Int) : F64 :=
  if M = 0 then .finite neg 0 (-1074)
  else
    let e1 : Int := max (e + (bits M : Int) - 53) (-1074)
    if e1 ≤ e then pack neg (M <<< (e - e1).toNat) e1
    else
      let k := (e1 - e).toNat
      let q := M >>> k
      let r := M % (1 <<< k)
      let half := 1 <<< (k - 1)
      let q1 := if half < r ∨ (r = half ∧ q % 2 = 1) then q + 1 else q
      if q1 = 2 ^ 53 then pack neg (2 ^ 52) (e1 + 1) else pack neg q1 e1

/-- The integer `(-1)^neg * m`. -/
def signed (neg : Bool) (m : Nat) : Int := if neg then -(m : Int) else (m : Int)

/-- Binary64 addition.  Two finite operands are added exactly over their
smaller exponent and the exact sum is rounded; an exact zero sum is `+0`
unless both operands are negative. -/
def add : F64 → F64 → F64
  | .nan, _ => .nan
  | _, .nan => .nan
  | .inf a, .inf b => if a = b then .inf a else .nan
  | .inf a, .finite _ _ _ => .inf a
  | .finite _ _ _, .inf b => .inf b
  | .finite n1 m1 e1, .finite n2 m2 e2 =>
    let e := min e1 e2
    let s : Int := signed n1 (m1 <<< (e1 - e).toNat) + signed n2 (m2 <<< (e2 - e).toNat)
    if s = 0 then .finite (n1 && n2) 0 (-1074)
    else round (decide (s < 0)) s.natAbs e

/-- Unary minus. -/
def neg : F64 → F64
  | .finite n m e => .finite (!n) m e
  | .inf n => .inf (!n)
  | .nan => .nan

/-- Powers of ten. -/
def pow10 : Nat → Nat
  | 0 => 1
  | k + 1 => 10 * pow10 k

/-- The double a decimal literal `d e k` denotes, for a natural number `d`:
the double nearest to `d * 10^k` (`5.0` is `lit 5 0`, `1e308` is `lit 1 308`). -/
def lit (d k : Nat) : F64 := round false (d * pow10 k) 0

instance : Add F64 := ⟨add⟩

/-- The literal `0.0`. -/
instance : Zero F64 := ⟨.finite false 0 (-1074)⟩

/-- The largest finite double, `(2^53 - 1) * 2^971`, about 1.797e308. -/
def max_finite : F64 := .finite false (2 ^ 53 - 1) 971

/-- The comparison `==` of two doubles: a NaN equals nothing, the two zeros are
equal, and otherwise equal data are equal. -/
def eq : F64 → F64 → Bool
  | .nan, _ => false
  | _, .nan => false
  | .finite _ 0 _, .finite _ 0 _ => true
  | a, b => decide (a = b)

end F64

/-! ## Reference notions used by the statements -/

/-- The elements of `x` at the listed indices, in the listed order. -/
def elems {α : Type} (x : List α) (idx : List Nat) : List α :=
  idx.filterMap (fun i => x[i]?)

/-- The indices `k, k + 4, k + 8, ...` below `n_unrolled n`. -/
def stride_indices (n k : Nat) : List Nat := List.range' k (n_unrolled n / 4) 4

/-- The indices `n_unrolled n, ..., n - 1`. -/
def tail_indices (n : Nat) : List Nat := List.range' (n_unrolled n) (n - n_unrolled n)

/-- The left-to-right fold, starting from `0.0`, of `x[k], x[k + 4], x[k + 8], ...`
over the indices below `n_unrolled`. -/
def stride_sum {α : Type} [Add α] [Zero α] (x : List α) (k : Nat) : α :=
  (elems x (stride_indices x.length k)).foldl (· + ·) 0

/-- The left-to-right fold, starting from `0.0`, of `x[n_unrolled], ..., x[n - 1]`. -/
def tail_sum {α : Type} [Add α] [Zero α] (x : List α) : α :=
  (elems x (tail_indices x.length)).foldl (· + ·) 0

/-- The fixed grouping `((((S0 + S1) + S2) + S3) + R)`. -/
def grouped_sum {α : Type} [Add α] [Zero α] (x : List α) : α :=
  ((((stride_sum x 0 + stride_sum x 1) + stride_sum x 2) + stride_sum x 3) + tail_sum x)

/-- The accumulator an element read at index `i` is added into, for an input of
length `n`: `sum(i mod 4)` below `n_unrolled`, `remainder` from there on. -/
def slot_of (n i : Nat) : Slot :=
  if i < n_unrolled n then
    match i % 4 with
    | 0 => .sum0
    | 1 => .sum1
    | 2 => .sum2
    | _ => .sum3
  else .remainder

/-- The indices a read log lists for one accumulator, in the order read. -/
def reads_into (log : List (Nat × Slot)) (a : Slot) : List Nat :=
  (log.filter (fun p => p.2 = a)).map (fun p => p.1)

/-- The reads of `d` consecutive iterations of the unrolled loop, the first at
index `i`. -/
def block_reads : Nat → Nat → List (Nat × Slot)
  | _, 0 => []
  | i, d + 1 =>
    (i, .sum0) :: (i + 1, .sum1) :: (i + 2, .sum2) :: (i + 3, .sum3) :: block_reads (i + 4) d

/-- The reads of the remainder loop over `d` indices from `i` on. -/
def tail_reads (i d : Nat) : List (Nat × Slot) :=
  (List.range' i d).map (fun j => (j, Slot.remainder))

/-- The locals of the unrolled loop when it exits, for an input of length at
least one. -/
def final_unrolled {α : Type} [Add α] [Zero α] (x : List α) : Unrolled α :=
  { i := n_unrolled x.length
    sum0 := stride_sum x 0
    sum1 := stride_sum x 1
    sum2 := stride_sum x 2
    sum3 := stride_sum x 3
    reads := block_reads 0 (x.length / 4)
    iters := x.length / 4 }

/-- The locals of the remainder loop when it exits. -/
def final_tail {α : Type} [Add α] [Zero α] (x : List α) : Tail α :=
  { i := x.length
    remainder := tail_sum x
    reads := tail_reads (n_unrolled x.length) (x.length % 4)
    iters := x.length % 4 }

/-! ## Single iterations, exit records, the sequential sum -/

/-- Lines 22-25 followed by `i += 4`: one iteration of the unrolled loop. -/
def unrolled_body {α : Type} [Add α] (x : List α) (s : Unrolled α) :
    Except Fault (Unrolled α) :=
  match read x s.i with
  | .error f => .error f
  | .ok a =>
  match read x (s.i + 1) with
  | .error f => .error f
  | .ok b =>
  match read x (s.i + 2) with
  | .error f => .error f
  | .ok c =>
  match read x (s.i + 3) with
  | .error f => .error f
  | .ok d =>
    .ok
      { i := s.i + 4
        sum0 := s.sum0 + a
        sum1 := s.sum1 + b
        sum2 := s.sum2 + c
        sum3 := s.sum3 + d
        reads := s.reads ++
          [(s.i, .sum0), (s.i + 1, .sum1), (s.i + 2, .sum2), (s.i + 3, .sum3)]
        iters := s.iters + 1 }

/-- Line 31 followed by `i++`: one iteration of the remainder loop. -/
def remainder_body {α : Type} [Add α] (x : List α) (t : Tail α) : Except Fault (Tail α) :=
  match read x t.i with
  | .error f => .error f
  | .ok a =>
    .ok
      { i := t.i + 1
        remainder := t.remainder + a
        reads := t.reads ++ [(t.i, .remainder)]
        iters := t.iters + 1 }

/-- The element reads of a whole call, in order: none on the early return,
those of the unrolled loop and then those of the remainder loop otherwise. -/
def Exit.reads {α : Type} : Exit α → List (Nat × Slot)
  | .early _ => []
  | .full u t _ => u.reads ++ t.reads

/-- The iterations the unrolled loop performed during a call. -/
def Exit.unrolled_iters {α : Type} : Exit α → Nat
  | .early _ => 0
  | .full u _ _ => u.iters

/-- The iterations the remainder loop performed during a call. -/
def Exit.remainder_iters {α : Type} : Exit α → Nat
  | .early _ => 0
  | .full _ t _ => t.iters

/-- The additions of an element into an accumulator during a call: four in
each iteration of the unrolled loop, one in each iteration of the remainder
loop. -/
def Exit.element_additions {α : Type} (e : Exit α) : Nat :=
  4 * e.unrolled_iters + e.remainder_iters

/-- The strictly sequential left-to-right sum
`((((0.0 + x[0]) + x[1]) + ...) + x[n-1])`. -/
def naive_sum {α : Type} [Add α] [Zero α] (x : List α) : α :=
  x.foldl (· + ·) 0

/-! ## Binary64: the digit count and reference points -/

theorem F64.bits_aux_spec : ∀ (fuel M : Nat), M ≤ fuel →
    M < 2 ^ F64.bits_aux fuel M ∧ (0 < M → 2 ^ (F64.bits_aux fuel M - 1) ≤ M) := by
  intro fuel
  induction fuel with
  | zero =>
    intro M hM
    have : M = 0 := by omega
    subst this
    simp [F64.bits_aux]
  | succ fuel ih =>
    intro M hM
    unfold F64.bits_aux
    by_cases h0 : M = 0
    · subst h0
      simp
    · rw [if_neg h0]
      by_cases h64 : 2 ^ 64 ≤ M
      · rw [if_pos h64]
        have hpos : 0 < M / 2 ^ 64 := Nat.div_pos h64 (by decide)
        obtain ⟨h1, h2⟩ := ih (M / 2 ^ 64) (by omega)
        have h2 := h2 hpos
        have hb : 1 ≤ F64.bits_aux fuel (M / 2 ^ 64) := by
          by_contra hb
          have : F64.bits_aux fuel (M / 2 ^ 64) = 0 := by omega
          rw [this] at h1
          omega
        have e1 : F64.bits_aux fuel (M / 2 ^ 64) + 64 - 1
            = (F64.bits_aux fuel (M / 2 ^ 64) - 1) + 64 := by omega
        rw [e1, Nat.pow_add, Nat.pow_add]
        constructor
        · omega
        · intro _
          omega
      · rw [if_neg h64]
        obtain ⟨h1, h2⟩ := ih (M / 2) (by omega)
        rw [Nat.add_sub_cancel, Nat.pow_succ]
        constructor
        · omega
        · intro _
          by_cases hpos : 0 < M / 2
          · have h2 := h2 hpos
            have hb : 1 ≤ F64.bits_aux fuel (M / 2) := by
              by_contra hb
              have : F64.bits_aux fuel (M / 2) = 0 := by omega
              rw [this] at h1
              omega
            have e : 2 ^ F64.bits_aux fuel (M / 2)
                = 2 ^ (F64.bits_aux fuel (M / 2) - 1) * 2 := by
              rw [← Nat.pow_succ]
              congr 1
              omega
            omega
          · have hz : M / 2 = 0 := by omega
            have hb : F64.bits_aux fuel 0 = 0 := by
              cases fuel <;> simp [F64.bits_aux]
            rw [hz, hb]
            omega

/-- The digit count `bits M` is the least `L` with `M < 2^L`. -/
theorem F64.bits_spec (M : Nat) :
    M < 2 ^ F64.bits M ∧ (0 < M → 2 ^ (F64.bits M - 1) ≤ M) :=
  F64.bits_aux_spec M M (Nat.le_refl M)

/-- Reference points of binary64 addition: ties go to the even significand
(`2^53 + 1 = 2^53`, `(2^53 + 2) + 1 = 2^53 + 4`), subnormals add exactly, a
number and its negation give `+0`, the largest finite double absorbs `1.0`
and less than half a unit in its last place, and overflows to `+inf` from
half a unit on. -/
theorem F64.add_reference_points :
    F64.lit 9007199254740992 0 + F64.lit 1 0 = F64.lit 9007199254740992 0 ∧
    F64.lit 9007199254740994 0 + F64.lit 1 0 = F64.lit 9007199254740996 0 ∧
    F64.finite false 1 (-1074) + F64.finite false 1 (-1074) = F64.finite false 2 (-1074) ∧
    F64.lit 5 0 + (F64.lit 5 0).neg = 0 ∧
    F64.max_finite + F64.lit 1 0 = F64.max_finite ∧
    F64.max_finite + F64.finite false (2 ^ 52) 917 = F64.max_finite ∧
    F64.max_finite + F64.finite false (2 ^ 52) 918 = F64.inf false ∧
    F64.max_finite + F64.max_finite = F64.inf false := by
  refine ⟨?_, ?_, ?_, ?_, ?_, ?_, ?_, ?_⟩ <;> set_option maxRecDepth 4000 in decide


/-! ## The loops -/


theorem read_ok {α : Type} (x : List α) (i : Nat) (h : i < x.length) :
    read x i = .ok x[i] := by
  simp [read, List.getElem?_eq_getElem h]

theorem elems_nil {α : Type} (x : List α) : elems x [] = [] := rfl

theorem elems_cons {α : Type} (x : List α) (i : Nat) (idx : List Nat) (h : i < x.length) :
    elems x (i :: idx) = x[i] :: elems x idx := by
  simp [elems, List.filterMap_cons, List.getElem?_eq_getElem h]

/-- The unrolled loop, started at index `s.i` with at least `d` iterations of
budget and `4 * d` elements ahead, runs exactly `d` iterations. -/
theorem unrolled_loop_run {α : Type} [Add α] (x : List α) :
    ∀ (d fuel : Nat) (s : Unrolled α), d ≤ fuel → s.i + 4 * d ≤ x.length →
      unrolled_loop x (s.i + 4 * d) fuel s = .ok
        { i := s.i + 4 * d
          sum0 := (elems x (List.range' s.i d 4)).foldl (· + ·) s.sum0
          sum1 := (elems x (List.range' (s.i + 1) d 4)).foldl (· + ·) s.sum1
          sum2 := (elems x (List.range' (s.i + 2) d 4)).foldl (· + ·) s.sum2
          sum3 := (elems x (List.range' (s.i + 3) d 4)).foldl (· + ·) s.sum3
          reads := s.reads ++ block_reads s.i d
          iters := s.iters + d } := by
  intro d
  induction d with
  | zero =>
    intro fuel s _ _
    unfold unrolled_loop
    simp [elems, block_reads]
  | succ d ih =>
    intro fuel s hf hlen
    obtain ⟨fuel, rfl⟩ : ∃ f, fuel = f + 1 := ⟨fuel - 1, by omega⟩
    unfold unrolled_loop
    have h0 : s.i < x.length := by omega
    have h1 : s.i + 1 < x.length := by omega
    have h2 : s.i + 2 < x.length := by omega
    have h3 : s.i + 3 < x.length := by omega
    have hlt : s.i < s.i + 4 * (d + 1) := by omega
    have e : s.i + 4 * (d + 1) = (s.i + 4) + 4 * d := by omega
    simp only [hlt, if_true, read_ok x _ h0, read_ok x _ h1, read_ok x _ h2, read_ok x _ h3]
    rw [e]
    have := ih fuel
      { i := s.i + 4
        sum0 := s.sum0 + x[s.i]
        sum1 := s.sum1 + x[s.i + 1]
        sum2 := s.sum2 + x[s.i + 2]
        sum3 := s.sum3 + x[s.i + 3]
        reads := s.reads ++
          [(s.i, .sum0), (s.i + 1, .sum1), (s.i + 2, .sum2), (s.i + 3, .sum3)]
        iters := s.iters + 1 } (by omega) (by simpa using (by omega : s.i + 4 + 4 * d ≤ x.length))
    dsimp only at this
    rw [this]
    clear this ih
    simp only [List.range'_succ, elems_cons x _ _ h0, elems_cons x _ _ h1, elems_cons x _ _ h2,
      elems_cons x _ _ h3, List.foldl_cons, block_reads, List.append_assoc, List.cons_append,
      List.nil_append]
    rw [show s.i + 4 + 1 = s.i + 1 + 4 by omega, show s.i + 4 + 2 = s.i + 2 + 4 by omega,
      show s.i + 4 + 3 = s.i + 3 + 4 by omega, show s.iters + 1 + d = s.iters + (d + 1) by omega]

/-- The remainder loop, started at index `t.i` with at least `d` iterations of
budget and `d` elements ahead, runs exactly `d` iterations. -/
theorem remainder_loop_run {α : Type} [Add α] (x : List α) :
    ∀ (d fuel : Nat) (t : Tail α), d ≤ fuel → t.i + d ≤ x.length →
      remainder_loop x (t.i + d) fuel t = .ok
        { i := t.i + d
          remainder := (elems x (List.range' t.i d)).foldl (· + ·) t.remainder
          reads := t.reads ++ tail_reads t.i d
          iters := t.iters + d } := by
  intro d
  induction d with
  | zero =>
    intro fuel t _ _
    unfold remainder_loop
    simp [elems, tail_reads]
  | succ d ih =>
    intro fuel t hf hlen
    obtain ⟨fuel, rfl⟩ : ∃ f, fuel = f + 1 := ⟨fuel - 1, by omega⟩
    unfold remainder_loop
    have h0 : t.i < x.length := by omega
    have hlt : t.i < t.i + (d + 1) := by omega
    simp only [hlt, if_true, read_ok x _ h0]
    rw [show t.i + (d + 1) = (t.i + 1) + d by omega]
    have := ih fuel
      { i := t.i + 1
        remainder := t.remainder + x[t.i]
        reads := t.reads ++ [(t.i, .remainder)]
        iters := t.iters + 1 } (by omega) (by simpa using (by omega : t.i + 1 + d ≤ x.length))
    dsimp only at this
    rw [this]
    clear this ih
    simp only [List.range'_succ, elems_cons x _ _ h0, List.foldl_cons, tail_reads, List.map_cons,
      List.append_assoc, List.cons_append, List.nil_append]
    rw [show t.iters + 1 + d = t.iters + (d + 1) by omega]

theorem n_unrolled_eq (n : Nat) : n_unrolled n = 4 * (n / 4) := by
  unfold n_unrolled
  omega

/-- A call on a non-empty input leaves through the final return, with the
locals `final_unrolled` and `final_tail` and the value `grouped_sum`. -/
theorem run_full {α : Type} [Add α] [Zero α] (x : List α) (hx : x.length ≠ 0) :
    run x = .ok (.full (final_unrolled x) (final_tail x) (grouped_sum x)) := by
  have hu := unrolled_loop_run x (x.length / 4) x.length
    { i := 0, sum0 := 0, sum1 := 0, sum2 := 0, sum3 := 0, reads := [], iters := 0 }
    (Nat.div_le_self _ _) (by simpa using (by omega : 4 * (x.length / 4) ≤ x.length))
  have ht := remainder_loop_run x (x.length % 4) x.length
    { i := n_unrolled x.length, remainder := 0, reads := [], iters := 0 }
    (Nat.mod_le _ _) (by simp only [n_unrolled]; omega)
  have e1 : n_unrolled x.length + x.length % 4 = x.length := by
    unfold n_unrolled; omega
  have e2 : x.length - n_unrolled x.length = x.length % 4 := by
    unfold n_unrolled; omega
  simp only [Nat.zero_add, List.nil_append] at hu ht
  rw [e1] at ht
  rw [← n_unrolled_eq] at hu
  unfold run
  simp only [hx, if_false, hu, ht]
  have e3 : n_unrolled x.length / 4 = x.length / 4 := by
    unfold n_unrolled; omega
  simp only [final_unrolled, final_tail, grouped_sum, stride_sum, tail_sum, stride_indices,
    tail_indices, e2, e3]


theorem sum_array_cpp_full {α : Type} [Add α] [Zero α] (x : List α) (hx : x.length ≠ 0) :
    sum_array_cpp x = .ok (grouped_sum x) := by
  simp [sum_array_cpp, run_full x hx, Exit.value]

/-! ## Exact addition -/

theorem elems_range' {α : Type} (x : List α) :
    ∀ (d a : Nat), a + d ≤ x.length → elems x (List.range' a d) = (x.drop a).take d := by
  intro d
  induction d with
  | zero => intro a _; simp [elems]
  | succ d ih =>
    intro a h
    have ha : a < x.length := by omega
    rw [List.range'_succ, elems_cons x _ _ ha, ih (a + 1) (by omega),
      List.drop_eq_getElem_cons ha, List.take_succ_cons]

/-- Over a commutative monoid the four stride sums over `4 * d` elements from
index `a` on add up to the sum of those elements. -/
theorem lanes_sum {α : Type} [AddCommMonoid α] (x : List α) :
    ∀ (d a : Nat), a + 4 * d ≤ x.length →
      (elems x (List.range' a d 4)).sum + (elems x (List.range' (a + 1) d 4)).sum +
        (elems x (List.range' (a + 2) d 4)).sum + (elems x (List.range' (a + 3) d 4)).sum =
      ((x.drop a).take (4 * d)).sum := by
  intro d
  induction d with
  | zero => intro a _; simp [elems]
  | succ d ih =>
    intro a h
    have h0 : a < x.length := by omega
    have h1 : a + 1 < x.length := by omega
    have h2 : a + 2 < x.length := by omega
    have h3 : a + 3 < x.length := by omega
    have := ih (a + 4) (by omega)
    rw [show a + 4 + 1 = a + 1 + 4 by omega, show a + 4 + 2 = a + 2 + 4 by omega,
      show a + 4 + 3 = a + 3 + 4 by omega] at this
    rw [show 4 * (d + 1) = 4 * d + 1 + 1 + 1 + 1 by omega, List.drop_eq_getElem_cons h0,
      List.drop_eq_getElem_cons h1, List.drop_eq_getElem_cons h2, List.drop_eq_getElem_cons h3]
    simp only [List.take_succ_cons, List.sum_cons, List.range'_succ, elems_cons x _ _ h0,
      elems_cons x _ _ h1, elems_cons x _ _ h2, elems_cons x _ _ h3]
    rw [show a + 1 + 1 + 1 + 1 = a + 4 by omega, ← this]
    abel

theorem grouped_sum_eq_sum {α : Type} [AddCommMonoid α] (x : List α) :
    grouped_sum x = x.sum := by
  have e1 : n_unrolled x.length / 4 = x.length / 4 := by unfold n_unrolled; omega
  have e2 : x.length - n_unrolled x.length = x.length % 4 := by unfold n_unrolled; omega
  have hl := lanes_sum x (x.length / 4) 0 (by omega)
  have ht := elems_range' x (x.length % 4) (n_unrolled x.length) (by unfold n_unrolled; omega)
  simp only [grouped_sum, stride_sum, tail_sum, stride_indices, tail_indices, e1, e2,
    ← List.sum_eq_foldl]
  simp only [Nat.zero_add, List.drop_zero] at hl
  have h5 : (x.drop (n_unrolled x.length)).take (x.length % 4) = x.drop (n_unrolled x.length) :=
    List.take_of_length_le (by rw [List.length_drop]; omega)
  rw [hl, ht, ← n_unrolled_eq, h5]
  exact List.sum_take_add_sum_drop x _

theorem sum_array_cpp_eq_sum {α : Type} [AddCommMonoid α] (x : List α) :
    sum_array_cpp x = .ok x.sum := by
  by_cases hx : x.length = 0
  · have : x = [] := List.length_eq_zero.mp hx
    subst this
    rfl
  · rw [sum_array_cpp_full x hx, grouped_sum_eq_sum]

/-- C1: where addition is exact (any commutative monoid, so the integers and
the rationals), `sum_array_cpp x` returns, for every finite sequence `x` of any
length, exactly the sum of its elements, which is the naive left-to-right fold
from `0`; and in binary64 the two reference inputs give
`sum([1.0, 2.0, 3.0, 4.0, 5.0]) = 15.0` and `sum([1.0, 2.0, 3.0, 4.0]) = 10.0`. -/
theorem sum_array_cpp_exact :
    (∀ (α : Type) [AddCommMonoid α] (x : List α),
      sum_array_cpp x = .ok x.sum ∧ x.sum = x.foldl (· + ·) 0) ∧
    sum_array_cpp [F64.lit 1 0, F64.lit 2 0, F64.lit 3 0, F64.lit 4 0, F64.lit 5 0]
      = .ok (F64.lit 15 0) ∧
    sum_array_cpp [F64.lit 1 0, F64.lit 2 0, F64.lit 3 0, F64.lit 4 0] = .ok (F64.lit 10 0) := by
  refine ⟨?_, ?_, ?_⟩
  · intro α _ x
    exact ⟨sum_array_cpp_eq_sum x, List.sum_eq_foldl⟩
  · set_option maxRecDepth 4000 in decide
  · set_option maxRecDepth 4000 in decide

/-- C2: on the empty sequence the call leaves through the early return with
exactly `0.0`, whatever the addition is (none is performed), and the early
return is taken if and only if `n = 0`. -/
theorem sum_array_cpp_empty {α : Type} [Add α] [Zero α] :
    run ([] : List α) = .ok (.early 0) ∧
    sum_array_cpp ([] : List α) = .ok 0 ∧
    ∀ x : List α, (∃ v, run x = .ok (.early v)) ↔ x.length = 0 := by
  refine ⟨rfl, rfl, ?_⟩
  intro x
  constructor
  · rintro ⟨v, hv⟩
    by_contra hx
    rw [run_full x hx] at hv
    cases hv
  · intro hx
    have : x = [] := List.length_eq_zero.mp hx
    subst this
    exact ⟨0, rfl⟩

/-- C3: on a one-element sequence the unrolled loop performs no iteration, the
remainder loop reads index 0 once and leaves `0.0 + v`, and the value returned
is `(((0.0 + 0.0) + 0.0) + 0.0) + (0.0 + v)`; this is `v` as soon as
`0.0 + 0.0 = 0.0` and `0.0 + v = v`. -/
theorem sum_array_cpp_singleton {α : Type} [Add α] [Zero α] (v : α)
    (h0 : (0 : α) + 0 = 0) (hv : (0 : α) + v = v) :
    run [v] = .ok (.full
      { i := 0, sum0 := 0, sum1 := 0, sum2 := 0, sum3 := 0, reads := [], iters := 0 }
      { i := 1, remainder := 0 + v, reads := [(0, .remainder)], iters := 1 }
      ((((0 + 0) + 0) + 0) + (0 + v))) ∧
    sum_array_cpp [v] = .ok v := by
  have hr : run [v] = .ok (.full
      { i := 0, sum0 := 0, sum1 := 0, sum2 := 0, sum3 := 0, reads := [], iters := 0 }
      { i := 1, remainder := 0 + v, reads := [(0, .remainder)], iters := 1 }
      ((((0 + 0) + 0) + 0) + (0 + v))) := rfl
  refine ⟨hr, ?_⟩
  simp only [sum_array_cpp, hr, Exit.value, h0, hv]

/-- Witness for C3 in binary64: `sum([5.0]) = 5.0`. -/
theorem sum_array_cpp_singleton_witness :
    ((0 : F64) + 0 = 0 ∧ (0 : F64) + F64.lit 5 0 = F64.lit 5 0) ∧
    sum_array_cpp [F64.lit 5 0] = .ok (F64.lit 5 0) :=
  ⟨⟨by decide, by decide⟩, (sum_array_cpp_singleton (F64.lit 5 0) (by decide) (by decide)).2⟩

/-! ## Overflow and NaN -/

/-- C4, as stated, fails in binary64: on `[1e308, 1e308, -1e308, -1e308]` the
call does not return a value that compares equal to `0.0`, and the
intermediate addition `sum0 + sum1 = 1e308 + 1e308` overflows to `+inf`. -/
theorem cancellation_1e308_counterexample :
    (¬ ∃ r, sum_array_cpp
        [F64.lit 1 308, F64.lit 1 308, (F64.lit 1 308).neg, (F64.lit 1 308).neg] = .ok r ∧
        F64.eq r 0 = true) ∧
    ((0 : F64) + F64.lit 1 308) + ((0 : F64) + F64.lit 1 308) = .inf false := by
  have h : sum_array_cpp
      [F64.lit 1 308, F64.lit 1 308, (F64.lit 1 308).neg, (F64.lit 1 308).neg]
      = .ok (.inf false) := by
    set_option maxRecDepth 4000 in decide
  refine ⟨?_, by set_option maxRecDepth 4000 in decide⟩
  rintro ⟨r, hr, he⟩
  rw [h] at hr
  cases hr
  revert he
  decide

/-- C4, amended: in binary64 `sum_array_cpp([1e308, 1e308, -1e308, -1e308])`
is `+inf`.  The literal `1e308` is the finite double `5010420900022432 * 2^971`;
the loop leaves `sum0 = sum1 = 1e308` and `sum2 = sum3 = -1e308`; the first
combining addition `sum0 + sum1` overflows to `+inf`, and adding `sum2`, `sum3`
and the remainder `0.0` keeps `+inf`.  The four elements do cancel, to exactly
`0`, where addition is exact (any commutative group). -/
theorem cancellation_1e308_overflows :
    F64.lit 1 308 = .finite false 5010420900022432 971 ∧
    run [F64.lit 1 308, F64.lit 1 308, (F64.lit 1 308).neg, (F64.lit 1 308).neg] = .ok (.full
      { i := 4, sum0 := F64.lit 1 308, sum1 := F64.lit 1 308, sum2 := (F64.lit 1 308).neg,
        sum3 := (F64.lit 1 308).neg,
        reads := [(0, .sum0), (1, .sum1), (2, .sum2), (3, .sum3)], iters := 1 }
      { i := 4, remainder := 0, reads := [], iters := 0 }
      (.inf false)) ∧
    F64.lit 1 308 + F64.lit 1 308 = .inf false ∧
    F64.inf false + (F64.lit 1 308).neg = .inf false ∧
    F64.inf false + (0 : F64) = .inf false ∧
    sum_array_cpp [F64.lit 1 308, F64.lit 1 308, (F64.lit 1 308).neg, (F64.lit 1 308).neg]
      = .ok (.inf false) ∧
    (∀ (α : Type) [AddCommGroup α] (a : α), sum_array_cpp [a, a, -a, -a] = .ok 0) := by
  refine ⟨?_, ?_, ?_, ?_, ?_, ?_, ?_⟩
  · set_option maxRecDepth 4000 in decide
  · set_option maxRecDepth 4000 in decide
  · set_option maxRecDepth 4000 in decide
  · set_option maxRecDepth 4000 in decide
  · decide
  · set_option maxRecDepth 4000 in decide
  · intro α _ a
    rw [sum_array_cpp_eq_sum]
    simp

theorem foldl_absorbing_init {α : Type} [Add α] (a : α) (hl : ∀ y, a + y = a) (l : List α) :
    l.foldl (· + ·) a = a := by
  induction l with
  | nil => rfl
  | cons b l ih => rw [List.foldl_cons, hl, ih]

theorem foldl_absorbing_mem {α : Type} [Add α] (a : α) (hl : ∀ y, a + y = a)
    (hr : ∀ y, y + a = a) (l : List α) (h : a ∈ l) (init : α) :
    l.foldl (· + ·) init = a := by
  induction l generalizing init with
  | nil => cases h
  | cons b l ih =>
    rw [List.foldl_cons]
    rcases List.mem_cons.mp h with rfl | h
    · rw [hr, foldl_absorbing_init a hl]
    · exact ih h _

theorem mem_stride_indices (n k i : Nat) (hk : k < 4) :
    i ∈ stride_indices n k ↔ i < n_unrolled n ∧ i % 4 = k := by
  unfold stride_indices n_unrolled
  rw [List.mem_range']
  constructor
  · rintro ⟨j, hj, rfl⟩
    omega
  · rintro ⟨h1, h2⟩
    exact ⟨i / 4, by omega, by omega⟩

theorem mem_tail_indices (n i : Nat) :
    i ∈ tail_indices n ↔ n_unrolled n ≤ i ∧ i < n := by
  unfold tail_indices n_unrolled
  rw [List.mem_range'_1]
  omega

theorem mem_elems {α : Type} (x : List α) (idx : List Nat) (i : Nat) (a : α)
    (hi : i ∈ idx) (ha : x[i]? = some a) : a ∈ elems x idx :=
  List.mem_filterMap.mpr ⟨i, hi, ha⟩

theorem elems_length {α : Type} (x : List α) (idx : List Nat) (h : ∀ i ∈ idx, i < x.length) :
    (elems x idx).length = idx.length := by
  induction idx with
  | nil => rfl
  | cons i idx ih =>
    rw [elems_cons x i idx (h i (List.mem_cons_self _ _)), List.length_cons, List.length_cons,
      ih (fun j hj => h j (List.mem_cons_of_mem _ hj))]

/-- C5: if `a` is absorbing for the addition (`a + y = a` and `y + a = a` for
all `y`, as NaN is) and `x[k] = a` for some index `k`, then `sum_array_cpp x`
returns `a`, whichever accumulator index `k` falls into. -/
theorem sum_array_cpp_absorbing {α : Type} [Add α] [Zero α] (a : α)
    (hl : ∀ y, a + y = a) (hr : ∀ y, y + a = a) (x : List α) (k : Nat)
    (hk : x[k]? = some a) : sum_array_cpp x = .ok a := by
  have hlen : k < x.length := by
    by_contra h
    rw [List.getElem?_eq_none (by omega)] at hk
    cases hk
  rw [sum_array_cpp_full x (by omega)]
  congr 1
  unfold grouped_sum
  by_cases hlt : k < n_unrolled x.length
  · have hmod : k % 4 < 4 := Nat.mod_lt _ (by decide)
    have hmem : a ∈ elems x (stride_indices x.length (k % 4)) :=
      mem_elems x _ k a ((mem_stride_indices _ _ _ hmod).mpr ⟨hlt, rfl⟩) hk
    have hs : stride_sum x (k % 4) = a := foldl_absorbing_mem a hl hr _ hmem 0
    have h4 : k % 4 = 0 ∨ k % 4 = 1 ∨ k % 4 = 2 ∨ k % 4 = 3 := by omega
    rcases h4 with h | h | h | h <;> rw [h] at hs <;> simp only [hs, hl, hr]
  · have hmem : a ∈ elems x (tail_indices x.length) :=
      mem_elems x _ k a ((mem_tail_indices _ _).mpr ⟨by omega, hlen⟩) hk
    have hs : tail_sum x = a := foldl_absorbing_mem a hl hr _ hmem 0
    rw [hs, hr]

theorem F64.nan_add (y : F64) : F64.nan + y = F64.nan := by
  cases y <;> rfl

theorem F64.add_nan (y : F64) : y + F64.nan = F64.nan := by
  cases y <;> rfl

/-- Witness for C5: NaN is absorbing for binary64 addition, and a sequence
holding a NaN at index 1 sums to NaN. -/
theorem sum_array_cpp_absorbing_witness :
    ((∀ y : F64, F64.nan + y = F64.nan) ∧ (∀ y : F64, y + F64.nan = F64.nan) ∧
      [F64.lit 1 0, F64.nan, F64.lit 2 0, F64.lit 3 0, F64.lit 4 0][1]? = some F64.nan) ∧
    sum_array_cpp [F64.lit 1 0, F64.nan, F64.lit 2 0, F64.lit 3 0, F64.lit 4 0] = .ok F64.nan :=
  ⟨⟨F64.nan_add, F64.add_nan, rfl⟩,
    sum_array_cpp_absorbing F64.nan F64.nan_add F64.add_nan
      [F64.lit 1 0, F64.nan, F64.lit 2 0, F64.lit 3 0, F64.lit 4 0] 1 rfl⟩

/-! ## Grouping -/

/-- C6: for every sequence of length at least one and every addition
(nothing is assumed of it), `sum_array_cpp x` is the fixed grouping
`((((S0 + S1) + S2) + S3) + R)`: `Sk` is the left-to-right fold from `0.0` of
the elements at the indices `k, k + 4, ...` below `n_unrolled` (the indices
`i < n_unrolled` with `i % 4 = k`) and `R` that of the elements at the indices
`n_unrolled, ..., n - 1`; every such index is in range. -/
theorem sum_array_cpp_grouping {α : Type} [Add α] [Zero α] (x : List α)
    (hx : 1 ≤ x.length) :
    sum_array_cpp x = .ok (grouped_sum x) ∧
    grouped_sum x =
      ((((elems x (stride_indices x.length 0)).foldl (· + ·) 0 +
          (elems x (stride_indices x.length 1)).foldl (· + ·) 0) +
          (elems x (stride_indices x.length 2)).foldl (· + ·) 0) +
          (elems x (stride_indices x.length 3)).foldl (· + ·) 0) +
        (elems x (tail_indices x.length)).foldl (· + ·) 0 ∧
    (∀ k < 4, ∀ i, i ∈ stride_indices x.length k ↔ i < n_unrolled x.length ∧ i % 4 = k) ∧
    (∀ i, i ∈ tail_indices x.length ↔ n_unrolled x.length ≤ i ∧ i < x.length) ∧
    (∀ k < 4, (elems x (stride_indices x.length k)).length = (stride_indices x.length k).length) ∧
    (elems x (tail_indices x.length)).length = (tail_indices x.length).length := by
  refine ⟨sum_array_cpp_full x (by omega), rfl, fun k hk i => mem_stride_indices _ k i hk,
    mem_tail_indices _, ?_, ?_⟩
  · intro k hk
    apply elems_length
    intro i hi
    have := (mem_stride_indices _ k i hk).mp hi
    unfold n_unrolled at this
    omega
  · apply elems_length
    intro i hi
    exact ((mem_tail_indices _ i).mp hi).2

/-- Witness for C6 in binary64, where addition is not associative. -/
theorem sum_array_cpp_grouping_witness :
    1 ≤ [F64.lit 1 0, F64.lit 2 0, F64.lit 3 0, F64.lit 4 0, F64.lit 5 0, F64.lit 6 0].length ∧
    sum_array_cpp [F64.lit 1 0, F64.lit 2 0, F64.lit 3 0, F64.lit 4 0, F64.lit 5 0, F64.lit 6 0]
      = .ok (grouped_sum
        [F64.lit 1 0, F64.lit 2 0, F64.lit 3 0, F64.lit 4 0, F64.lit 5 0, F64.lit 6 0]) :=
  ⟨by decide,
    (sum_array_cpp_grouping
      [F64.lit 1 0, F64.lit 2 0, F64.lit 3 0, F64.lit 4 0, F64.lit 5 0, F64.lit 6 0]
      (by decide)).1⟩

/-! ## Index coverage -/

theorem slot_of_lt (n i : Nat) (h : i < n_unrolled n) :
    slot_of n i = (if i % 4 = 0 then Slot.sum0 else if i % 4 = 1 then Slot.sum1
      else if i % 4 = 2 then Slot.sum2 else Slot.sum3) := by
  have h4 : i % 4 = 0 ∨ i % 4 = 1 ∨ i % 4 = 2 ∨ i % 4 = 3 := by omega
  unfold slot_of
  rcases h4 with e | e | e | e <;> simp [h, e]

theorem slot_of_ge (n i : Nat) (h : n_unrolled n ≤ i) : slot_of n i = Slot.remainder := by
  unfold slot_of
  rw [if_neg (by omega)]

theorem block_reads_eq (n : Nat) :
    ∀ (d i : Nat), i % 4 = 0 → i + 4 * d ≤ n_unrolled n →
      block_reads i d = (List.range' i (4 * d)).map (fun j => (j, slot_of n j)) := by
  intro d
  induction d with
  | zero => intro i _ _; rfl
  | succ d ih =>
    intro i hi hle
    rw [show 4 * (d + 1) = 4 * d + 1 + 1 + 1 + 1 by omega]
    simp only [List.range'_succ, List.map_cons, block_reads]
    rw [slot_of_lt n i (by omega), slot_of_lt n (i + 1) (by omega),
      slot_of_lt n (i + 1 + 1) (by omega), slot_of_lt n (i + 1 + 1 + 1) (by omega),
      ih (i + 4) (by omega) (by omega)]
    rw [if_pos hi, if_neg (by omega), if_pos (by omega), if_neg (by omega), if_neg (by omega),
      if_pos (by omega), if_neg (by omega), if_neg (by omega), if_neg (by omega)]

theorem tail_reads_eq (n d : Nat) :
    tail_reads (n_unrolled n) d
      = (List.range' (n_unrolled n) d).map (fun j => (j, slot_of n j)) := by
  unfold tail_reads
  apply List.map_congr_left
  intro j hj
  rw [slot_of_ge n j (List.mem_range'_1.mp hj).1]

/-- The read log of a whole call lists the indices `0, ..., n - 1` in order,
each with the accumulator `slot_of` assigns to it. -/
theorem reads_eq (n : Nat) :
    block_reads 0 (n / 4) ++ tail_reads (n_unrolled n) (n % 4)
      = (List.range n).map (fun i => (i, slot_of n i)) := by
  rw [block_reads_eq n (n / 4) 0 rfl (by unfold n_unrolled; omega), tail_reads_eq,
    ← List.map_append, List.range_eq_range']
  congr 1
  have h := List.range'_append 0 (4 * (n / 4)) (n % 4) 1
  rw [n_unrolled_eq]
  simp only [Nat.zero_add, Nat.one_mul] at h
  rw [h]
  congr 1
  omega

theorem reads_into_append (l1 l2 : List (Nat × Slot)) (a : Slot) :
    reads_into (l1 ++ l2) a = reads_into l1 a ++ reads_into l2 a := by
  simp [reads_into]

theorem reads_into_block (d : Nat) : ∀ i : Nat,
    reads_into (block_reads i d) .sum0 = List.range' i d 4 ∧
    reads_into (block_reads i d) .sum1 = List.range' (i + 1) d 4 ∧
    reads_into (block_reads i d) .sum2 = List.range' (i + 2) d 4 ∧
    reads_into (block_reads i d) .sum3 = List.range' (i + 3) d 4 ∧
    reads_into (block_reads i d) .remainder = [] := by
  induction d with
  | zero => intro i; simp [reads_into, block_reads]
  | succ d ih =>
    intro i
    obtain ⟨h0, h1, h2, h3, h4⟩ := ih (i + 4)
    simp only [reads_into] at h0 h1 h2 h3 h4
    rw [show i + 4 + 1 = i + 1 + 4 by omega] at h1
    rw [show i + 4 + 2 = i + 2 + 4 by omega] at h2
    rw [show i + 4 + 3 = i + 3 + 4 by omega] at h3
    simp [reads_into, block_reads, List.range'_succ, List.filter_cons, h0, h1, h2, h3, h4]

theorem reads_into_tail (i d : Nat) :
    reads_into (tail_reads i d) .sum0 = [] ∧
    reads_into (tail_reads i d) .sum1 = [] ∧
    reads_into (tail_reads i d) .sum2 = [] ∧
    reads_into (tail_reads i d) .sum3 = [] ∧
    reads_into (tail_reads i d) .remainder = List.range' i d := by
  simp [reads_into, tail_reads, List.filter_map, Function.comp_def]

/-- C7: for every input of length `n ≥ 1` the call returns the sum of the five
accumulators, `sum0 + sum1 + sum2 + sum3 + remainder`; the element reads of the
two loops, in order, are exactly the indices `0, 1, ..., n - 1` (`n` reads, none
skipped, none repeated), index `i` going to `sum(i mod 4)` when
`i < n_unrolled` and to `remainder` otherwise; and each accumulator ends as the
fold, from `0.0`, of the elements whose reads went into it. -/
theorem sum_array_cpp_each_index_once {α : Type} [Add α] [Zero α] (x : List α)
    (hx : 1 ≤ x.length) :
    ∃ (u : Unrolled α) (t : Tail α),
      run x = .ok (.full u t (u.sum0 + u.sum1 + u.sum2 + u.sum3 + t.remainder)) ∧
      sum_array_cpp x = .ok (u.sum0 + u.sum1 + u.sum2 + u.sum3 + t.remainder) ∧
      u.reads ++ t.reads = (List.range x.length).map (fun i => (i, slot_of x.length i)) ∧
      (u.reads ++ t.reads).map Prod.fst = List.range x.length ∧
      (u.reads ++ t.reads).length = x.length ∧
      u.sum0 = (elems x (reads_into (u.reads ++ t.reads) .sum0)).foldl (· + ·) 0 ∧
      u.sum1 = (elems x (reads_into (u.reads ++ t.reads) .sum1)).foldl (· + ·) 0 ∧
      u.sum2 = (elems x (reads_into (u.reads ++ t.reads) .sum2)).foldl (· + ·) 0 ∧
      u.sum3 = (elems x (reads_into (u.reads ++ t.reads) .sum3)).foldl (· + ·) 0 ∧
      t.remainder = (elems x (reads_into (u.reads ++ t.reads) .remainder)).foldl (· + ·) 0 := by
  have hne : x.length ≠ 0 := by omega
  have hlog := reads_eq x.length
  have e1 : n_unrolled x.length / 4 = x.length / 4 := by unfold n_unrolled; omega
  have e2 : x.length - n_unrolled x.length = x.length % 4 := by unfold n_unrolled; omega
  obtain ⟨b0, b1, b2, b3, b4⟩ := reads_into_block (x.length / 4) 0
  obtain ⟨t0, t1, t2, t3, t4⟩ := reads_into_tail (n_unrolled x.length) (x.length % 4)
  refine ⟨final_unrolled x, final_tail x, ?_, ?_, ?_, ?_, ?_, ?_, ?_, ?_, ?_, ?_⟩
  · exact run_full x hne
  · exact sum_array_cpp_full x hne
  · exact hlog
  · simp only [final_unrolled, final_tail, hlog, List.map_map]
    exact List.map_id _
  · simp only [final_unrolled, final_tail, hlog, List.length_map, List.length_range]
  · simp only [final_unrolled, final_tail, reads_into_append, b0, t0, List.append_nil,
      stride_sum, stride_indices, e1]
  · simp only [final_unrolled, final_tail, reads_into_append, b1, t1, List.append_nil,
      stride_sum, stride_indices, e1, Nat.zero_add]
  · simp only [final_unrolled, final_tail, reads_into_append, b2, t2, List.append_nil,
      stride_sum, stride_indices, e1, Nat.zero_add]
  · simp only [final_unrolled, final_tail, reads_into_append, b3, t3, List.append_nil,
      stride_sum, stride_indices, e1, Nat.zero_add]
  · simp only [final_unrolled, final_tail, reads_into_append, b4, t4, List.nil_append,
      tail_sum, tail_indices, e2]

/-- Witness for C7 on a six-element input in binary64. -/
theorem sum_array_cpp_each_index_once_witness :
    1 ≤ [F64.lit 1 0, F64.lit 2 0, F64.lit 3 0, F64.lit 4 0, F64.lit 5 0, F64.lit 6 0].length ∧
    ∃ (u : Unrolled F64) (t : Tail F64),
      run [F64.lit 1 0, F64.lit 2 0, F64.lit 3 0, F64.lit 4 0, F64.lit 5 0, F64.lit 6 0]
        = .ok (.full u t (u.sum0 + u.sum1 + u.sum2 + u.sum3 + t.remainder)) ∧
      u.reads ++ t.reads = [(0, .sum0), (1, .sum1), (2, .sum2), (3, .sum3),
        (4, .remainder), (5, .remainder)] := by
  refine ⟨by decide, ?_⟩
  obtain ⟨u, t, h1, _, h3, _⟩ := sum_array_cpp_each_index_once
    [F64.lit 1 0, F64.lit 2 0, F64.lit 3 0, F64.lit 4 0, F64.lit 5 0, F64.lit 6 0] (by decide)
  exact ⟨u, t, h1, h3.trans (by decide)⟩

/-! ## The remainder path -/

/-- C8: when the length is a positive multiple of 4 the remainder loop performs
no iteration and no read, `remainder` is exactly `0.0` at the return statement,
and, given that adding `0.0` on the right is the identity, the value returned
is `((sum0 + sum1) + sum2) + sum3`. -/
theorem sum_array_cpp_multiple_of_four {α : Type} [Add α] [Zero α] (x : List α)
    (hpos : 0 < x.length) (h4 : x.length % 4 = 0) :
    ∃ (u : Unrolled α) (t : Tail α),
      run x = .ok (.full u t (u.sum0 + u.sum1 + u.sum2 + u.sum3 + t.remainder)) ∧
      t.iters = 0 ∧ t.reads = [] ∧ t.remainder = 0 ∧
      ((∀ a : α, a + 0 = a) → sum_array_cpp x = .ok (((u.sum0 + u.sum1) + u.sum2) + u.sum3)) := by
  have hne : x.length ≠ 0 := by omega
  have e2 : x.length - n_unrolled x.length = 0 := by unfold n_unrolled; omega
  have hr : tail_sum x = 0 := by
    simp only [tail_sum, tail_indices, e2]
    rfl
  refine ⟨final_unrolled x, final_tail x, run_full x hne, ?_, ?_, hr, ?_⟩
  · simp only [final_tail, h4]
  · simp only [final_tail, h4]
    rfl
  · intro hid
    rw [sum_array_cpp_full x hne]
    simp only [grouped_sum, final_unrolled, hr, hid]

/-- Witness for C8 over the integers: `sum([1, 2, 3, 4]) = 10`. -/
theorem sum_array_cpp_multiple_of_four_witness :
    (0 < ([1, 2, 3, 4] : List Int).length ∧ ([1, 2, 3, 4] : List Int).length % 4 = 0) ∧
    ∃ (u : Unrolled Int) (t : Tail Int),
      run ([1, 2, 3, 4] : List Int)
        = .ok (.full u t (u.sum0 + u.sum1 + u.sum2 + u.sum3 + t.remainder)) ∧
      t.iters = 0 ∧ t.reads = [] ∧ t.remainder = 0 ∧
      sum_array_cpp ([1, 2, 3, 4] : List Int) = .ok (((u.sum0 + u.sum1) + u.sum2) + u.sum3) := by
  refine ⟨⟨by decide, by decide⟩, ?_⟩
  obtain ⟨u, t, h1, h2, h3, h4, h5⟩ :=
    sum_array_cpp_multiple_of_four ([1, 2, 3, 4] : List Int) (by decide) (by decide)
  exact ⟨u, t, h1, h2, h3, h4, h5 Int.add_zero⟩

/-- C9: for every length `n`, `n_unrolled = n - n % 4` is the largest multiple
of 4 not exceeding `n`: it is a multiple of 4, it is at most `n`, fewer than 4
indices lie between it and `n`, and every multiple of 4 that is at most `n` is
at most `n_unrolled`. -/
theorem n_unrolled_largest_multiple (n : Nat) :
    4 ∣ n_unrolled n ∧ n_unrolled n ≤ n ∧ n - n_unrolled n < 4 ∧
    (∀ m, 4 ∣ m → m ≤ n → m ≤ n_unrolled n) ∧
    (∀ m, n_unrolled n < m → m ≤ n → ¬ 4 ∣ m) := by
  unfold n_unrolled
  refine ⟨by omega, by omega, by omega, ?_, ?_⟩
  · intro m hm hle
    omega
  · intro m hlt hle hm
    omega

/-- C10: for every input of length `n ≥ 1` the unrolled loop exits with
`i = n_unrolled` exactly; the remainder loop starts there, reads the indices
`n_unrolled, ..., n - 1` in order, performs exactly `n mod 4` iterations (at
most 3), all into `remainder`, and exits with `i = n`. -/
theorem remainder_loop_walk {α : Type} [Add α] [Zero α] (x : List α) (hx : 1 ≤ x.length) :
    ∃ (u : Unrolled α) (t : Tail α) (v : α),
      run x = .ok (.full u t v) ∧
      u.i = n_unrolled x.length ∧
      remainder_loop x x.length x.length { i := u.i, remainder := 0, reads := [], iters := 0 }
        = .ok t ∧
      t.reads = (List.range' (n_unrolled x.length) (x.length % 4)).map
        (fun j => (j, Slot.remainder)) ∧
      t.reads.length = x.length % 4 ∧
      t.iters = x.length % 4 ∧
      t.iters ≤ 3 ∧
      t.i = x.length ∧
      t.remainder =
        (elems x (List.range' (n_unrolled x.length) (x.length % 4))).foldl (· + ·) 0 := by
  have hne : x.length ≠ 0 := by omega
  have e2 : x.length - n_unrolled x.length = x.length % 4 := by unfold n_unrolled; omega
  have ht := remainder_loop_run x (x.length % 4) x.length
    { i := n_unrolled x.length, remainder := 0, reads := [], iters := 0 }
    (Nat.mod_le _ _) (by simp only [n_unrolled]; omega)
  have e1 : n_unrolled x.length + x.length % 4 = x.length := by unfold n_unrolled; omega
  simp only [Nat.zero_add, List.nil_append] at ht
  rw [e1] at ht
  refine ⟨final_unrolled x, final_tail x, grouped_sum x, run_full x hne, rfl, ?_, rfl, ?_, rfl,
    ?_, rfl, ?_⟩
  · show remainder_loop x x.length x.length
      { i := n_unrolled x.length, remainder := 0, reads := [], iters := 0 } = _
    rw [ht]
    simp only [final_tail, tail_sum, tail_indices, e2]
  · simp only [final_tail, tail_reads, List.length_map, List.length_range']
  · simp only [final_tail]
    omega
  · simp only [final_tail, tail_sum, tail_indices, e2]

/-- Witness for C10 on a seven-element input over the integers. -/
theorem remainder_loop_walk_witness :
    1 ≤ ([1, 2, 3, 4, 5, 6, 7] : List Int).length ∧
    ∃ (u : Unrolled Int) (t : Tail Int) (v : Int),
      run ([1, 2, 3, 4, 5, 6, 7] : List Int) = .ok (.full u t v) ∧
      u.i = 4 ∧ t.reads = [(4, .remainder), (5, .remainder), (6, .remainder)] ∧
      t.iters = 3 ∧ t.i = 7 := by
  refine ⟨by decide, ?_⟩
  obtain ⟨u, t, v, h1, h2, _, h4, _, h6, _, h8, _⟩ :=
    remainder_loop_walk ([1, 2, 3, 4, 5, 6, 7] : List Int) (by decide)
  exact ⟨u, t, v, h1, h2, h4, h6, h8⟩

/-! ## Completion -/

theorem unrolled_loop_step {α : Type} [Add α] (x : List α) (nu fuel : Nat) (s : Unrolled α)
    (h : s.i < nu) :
    unrolled_loop x nu (fuel + 1) s =
      (match unrolled_body x s with
       | .error f => .error f
       | .ok s1 => unrolled_loop x nu fuel s1) := by
  rw [unrolled_loop.eq_def]
  simp only [h, if_true, unrolled_body]
  cases read x s.i <;> cases read x (s.i + 1) <;> cases read x (s.i + 2) <;>
    cases read x (s.i + 3) <;> rfl

theorem unrolled_loop_exit {α : Type} [Add α] (x : List α) (nu fuel : Nat) (s : Unrolled α)
    (h : ¬ s.i < nu) : unrolled_loop x nu fuel s = .ok s := by
  unfold unrolled_loop
  simp only [h, if_false]

theorem remainder_loop_step {α : Type} [Add α] (x : List α) (n fuel : Nat) (t : Tail α)
    (h : t.i < n) :
    remainder_loop x n (fuel + 1) t =
      (match remainder_body x t with
       | .error f => .error f
       | .ok t1 => remainder_loop x n fuel t1) := by
  rw [remainder_loop.eq_def]
  simp only [h, if_true, remainder_body]
  cases read x t.i <;> rfl

theorem remainder_loop_exit {α : Type} [Add α] (x : List α) (n fuel : Nat) (t : Tail α)
    (h : ¬ t.i < n) : remainder_loop x n fuel t = .ok t := by
  unfold remainder_loop
  simp only [h, if_false]

theorem unrolled_body_next {α : Type} [Add α] (x : List α) (s s1 : Unrolled α)
    (h : unrolled_body x s = .ok s1) :
    s1.i = s.i + 4 ∧ s1.iters = s.iters + 1 ∧ s1.reads.length = s.reads.length + 4 := by
  revert h
  unfold unrolled_body
  cases read x s.i <;> cases read x (s.i + 1) <;> cases read x (s.i + 2) <;>
    cases read x (s.i + 3) <;> intro h <;>
    simp only [Except.ok.injEq, reduceCtorEq] at h
  subst h
  simp

theorem remainder_body_next {α : Type} [Add α] (x : List α) (t t1 : Tail α)
    (h : remainder_body x t = .ok t1) :
    t1.i = t.i + 1 ∧ t1.iters = t.iters + 1 ∧ t1.reads.length = t.reads.length + 1 := by
  revert h
  unfold remainder_body
  cases read x t.i <;> intro h <;>
    simp only [Except.ok.injEq, reduceCtorEq] at h
  subst h
  simp

theorem unrolled_body_ok {α : Type} [Add α] (x : List α) (s : Unrolled α)
    (h : s.i + 3 < x.length) : ∃ s1, unrolled_body x s = .ok s1 := by
  unfold unrolled_body
  rw [read_ok x _ (by omega : s.i < x.length), read_ok x _ (by omega : s.i + 1 < x.length),
    read_ok x _ (by omega : s.i + 2 < x.length), read_ok x _ h]
  exact ⟨_, rfl⟩

theorem remainder_body_ok {α : Type} [Add α] (x : List α) (t : Tail α)
    (h : t.i < x.length) : ∃ t1, remainder_body x t = .ok t1 := by
  unfold remainder_body
  rw [read_ok x _ h]
  exact ⟨_, rfl⟩

theorem read_out_of_range {α : Type} (x : List α) (i : Nat) (h : x.length ≤ i) :
    read x i = .error (.out_of_bounds i) := by
  simp [read, List.getElem?_eq_none h]

/-- Every call returns, and its record has the reads `0, ..., n - 1` and the
iteration counts `n / 4` and `n % 4`. -/
theorem run_record {α : Type} [Add α] [Zero α] (x : List α) :
    ∃ e : Exit α, run x = .ok e ∧ sum_array_cpp x = .ok e.value ∧
      e.reads = (List.range x.length).map (fun i => (i, slot_of x.length i)) ∧
      e.unrolled_iters = x.length / 4 ∧ e.remainder_iters = x.length % 4 := by
  by_cases hx : x.length = 0
  · have : x = [] := List.length_eq_zero.mp hx
    subst this
    exact ⟨.early 0, rfl, rfl, rfl, by simp [Exit.unrolled_iters],
      by simp [Exit.remainder_iters]⟩
  · refine ⟨.full (final_unrolled x) (final_tail x) (grouped_sum x), run_full x hx,
      sum_array_cpp_full x hx, ?_, rfl, rfl⟩
    exact reads_eq x.length

/-- With any budget of at least `n / 4` iterations the unrolled loop of a call
exits by its guard, with the same locals. -/
theorem unrolled_loop_any_budget {α : Type} [Add α] [Zero α] (x : List α) (fuel : Nat)
    (hf : x.length / 4 ≤ fuel) :
    unrolled_loop x (n_unrolled x.length) fuel
      { i := 0, sum0 := 0, sum1 := 0, sum2 := 0, sum3 := 0, reads := [], iters := 0 }
      = .ok (final_unrolled x) := by
  have hu := unrolled_loop_run x (x.length / 4) fuel
    { i := 0, sum0 := 0, sum1 := 0, sum2 := 0, sum3 := 0, reads := [], iters := 0 }
    hf (by simpa using (by omega : 4 * (x.length / 4) ≤ x.length))
  have e3 : n_unrolled x.length / 4 = x.length / 4 := by unfold n_unrolled; omega
  simp only [Nat.zero_add, List.nil_append] at hu
  rw [← n_unrolled_eq] at hu
  rw [hu]
  simp only [final_unrolled, stride_sum, stride_indices, e3]

/-- With any budget of at least `n % 4` iterations the remainder loop of a call
exits by its guard, with the same locals. -/
theorem remainder_loop_any_budget {α : Type} [Add α] [Zero α] (x : List α) (fuel : Nat)
    (hf : x.length % 4 ≤ fuel) :
    remainder_loop x x.length fuel
      { i := n_unrolled x.length, remainder := 0, reads := [], iters := 0 }
      = .ok (final_tail x) := by
  have ht := remainder_loop_run x (x.length % 4) fuel
    { i := n_unrolled x.length, remainder := 0, reads := [], iters := 0 }
    hf (by simp only [n_unrolled]; omega)
  have e1 : n_unrolled x.length + x.length % 4 = x.length := by unfold n_unrolled; omega
  have e2 : x.length - n_unrolled x.length = x.length % 4 := by unfold n_unrolled; omega
  simp only [Nat.zero_add, List.nil_append] at ht
  rw [e1] at ht
  rw [ht]
  simp only [final_tail, tail_sum, tail_indices, e2]

/-- C11: for every sequence, of any length `n ≥ 0`, the call returns.  Each
loop takes one iteration while its guard holds and exits when it fails; an
iteration of the unrolled loop strictly decreases `n_unrolled - i` and one of
the remainder loop strictly decreases `n - i`; the unrolled loop performs
exactly `n / 4` iterations and the remainder loop `n % 4`, so that `n`
elements are added into accumulators (`n` reads); and any iteration budget of
at least `n / 4`, resp. `n % 4`, gives the same exit, so the budget of the
embedding is never what stops a loop. -/
theorem sum_array_cpp_completes {α : Type} [Add α] [Zero α] (x : List α) :
    (∃ e : Exit α, run x = .ok e ∧ sum_array_cpp x = .ok e.value ∧
      e.unrolled_iters = x.length / 4 ∧ e.remainder_iters = x.length % 4 ∧
      e.element_additions = x.length ∧ e.reads.length = x.length) ∧
    (∀ (nu fuel : Nat) (s : Unrolled α), s.i < nu →
      unrolled_loop x nu (fuel + 1) s =
        (match unrolled_body x s with
         | .error f => .error f
         | .ok s1 => unrolled_loop x nu fuel s1)) ∧
    (∀ (nu fuel : Nat) (s : Unrolled α), ¬ s.i < nu → unrolled_loop x nu fuel s = .ok s) ∧
    (∀ (nu : Nat) (s s1 : Unrolled α), s.i < nu → unrolled_body x s = .ok s1 →
      nu - s1.i < nu - s.i) ∧
    (∀ (n fuel : Nat) (t : Tail α), t.i < n →
      remainder_loop x n (fuel + 1) t =
        (match remainder_body x t with
         | .error f => .error f
         | .ok t1 => remainder_loop x n fuel t1)) ∧
    (∀ (n fuel : Nat) (t : Tail α), ¬ t.i < n → remainder_loop x n fuel t = .ok t) ∧
    (∀ (n : Nat) (t t1 : Tail α), t.i < n → remainder_body x t = .ok t1 →
      n - t1.i < n - t.i) ∧
    (∀ fuel : Nat, x.length / 4 ≤ fuel →
      unrolled_loop x (n_unrolled x.length) fuel
        { i := 0, sum0 := 0, sum1 := 0, sum2 := 0, sum3 := 0, reads := [], iters := 0 }
        = .ok (final_unrolled x) ∧ (final_unrolled x).iters = x.length / 4) ∧
    (∀ fuel : Nat, x.length % 4 ≤ fuel →
      remainder_loop x x.length fuel
        { i := (final_unrolled x).i, remainder := 0, reads := [], iters := 0 }
        = .ok (final_tail x) ∧ (final_tail x).iters = x.length % 4) := by
  obtain ⟨e, he, hv, hr, hu, ht⟩ := run_record x
  refine ⟨⟨e, he, hv, hu, ht, ?_, ?_⟩, unrolled_loop_step x, unrolled_loop_exit x, ?_,
    remainder_loop_step x, remainder_loop_exit x, ?_, ?_, ?_⟩
  · simp only [Exit.element_additions, hu, ht]
    omega
  · rw [hr, List.length_map, List.length_range]
  · intro nu s s1 hlt hb
    have := (unrolled_body_next x s s1 hb).1
    omega
  · intro n t t1 hlt hb
    have := (remainder_body_next x t t1 hb).1
    omega
  · intro fuel hf
    exact ⟨unrolled_loop_any_budget x fuel hf, rfl⟩
  · intro fuel hf
    exact ⟨remainder_loop_any_budget x fuel hf, rfl⟩

/-! ## Bounds of the element reads -/

/-- C12: for every sequence, of any length `n ≥ 0`, every element read of a
call is in bounds.  The call returns (no read faults), and every index it read
is below `n` and has an element.  In the unrolled loop, an index `i` that is a
multiple of 4 and below `n_unrolled` has `i + 3 < n`, because `n_unrolled` is a
multiple of 4 that is at most `n`; from such an `i` the four reads of an
iteration succeed and leave `i + 4`, again a multiple of 4 and at most
`n_unrolled`.  In the remainder loop a read at `i < n` succeeds.  A read at an
index from `n` on would fault. -/
theorem sum_array_cpp_in_bounds {α : Type} [Add α] [Zero α] (x : List α) :
    (∃ e : Exit α, run x = .ok e ∧ sum_array_cpp x = .ok e.value ∧
      ∀ p ∈ e.reads, p.1 < x.length ∧ ∃ v, x[p.1]? = some v) ∧
    (∀ i : Nat, run x ≠ .error (.out_of_bounds i)) ∧
    (∀ i : Nat, sum_array_cpp x ≠ .error (.out_of_bounds i)) ∧
    (4 ∣ n_unrolled x.length ∧ n_unrolled x.length ≤ x.length) ∧
    (∀ i : Nat, 4 ∣ i → i < n_unrolled x.length →
      i < x.length ∧ i + 1 < x.length ∧ i + 2 < x.length ∧ i + 3 < x.length) ∧
    (∀ s : Unrolled α, 4 ∣ s.i → s.i < n_unrolled x.length →
      ∃ s1, unrolled_body x s = .ok s1 ∧ 4 ∣ s1.i ∧ s1.i ≤ n_unrolled x.length) ∧
    (∀ t : Tail α, t.i < x.length →
      ∃ t1, remainder_body x t = .ok t1 ∧ t1.i ≤ x.length) ∧
    (∀ i : Nat, x.length ≤ i → read x i = .error (.out_of_bounds i)) := by
  obtain ⟨e, he, hv, hr, _, _⟩ := run_record x
  have hdiv : 4 ∣ n_unrolled x.length := by unfold n_unrolled; omega
  have hle : n_unrolled x.length ≤ x.length := by unfold n_unrolled; omega
  refine ⟨⟨e, he, hv, ?_⟩, ?_, ?_, ⟨hdiv, hle⟩, ?_, ?_, ?_, read_out_of_range x⟩
  · intro p hp
    rw [hr, List.mem_map] at hp
    obtain ⟨i, hi, rfl⟩ := hp
    have hlt : i < x.length := List.mem_range.mp hi
    exact ⟨hlt, x[i], List.getElem?_eq_getElem hlt⟩
  · intro i h
    rw [he] at h
    cases h
  · intro i h
    rw [hv] at h
    cases h
  · intro i hi hlt
    omega
  · intro s hs hlt
    obtain ⟨s1, h1⟩ := unrolled_body_ok x s (by omega)
    have := (unrolled_body_next x s s1 h1).1
    exact ⟨s1, h1, by omega, by omega⟩
  · intro t hlt
    obtain ⟨t1, h1⟩ := remainder_body_ok x t hlt
    have := (remainder_body_next x t t1 h1).1
    exact ⟨t1, h1, by omega⟩

/-! ## Short inputs and the sequential sum -/

theorem sum_array_cpp_one {α : Type} [Add α] [Zero α] (a : α) :
    sum_array_cpp [a] = .ok ((((0 + 0) + 0) + 0) + (0 + a)) := rfl

theorem sum_array_cpp_two {α : Type} [Add α] [Zero α] (a b : α) :
    sum_array_cpp [a, b] = .ok ((((0 + 0) + 0) + 0) + ((0 + a) + b)) := rfl

theorem sum_array_cpp_three {α : Type} [Add α] [Zero α] (a b c : α) :
    sum_array_cpp [a, b, c] = .ok ((((0 + 0) + 0) + 0) + (((0 + a) + b) + c)) := rfl

theorem sum_array_cpp_four {α : Type} [Add α] [Zero α] (a b c d : α) :
    sum_array_cpp [a, b, c, d] = .ok (((((0 + a) + (0 + b)) + (0 + c)) + (0 + d)) + 0) := by
  simp [sum_array_cpp, run, n_unrolled, unrolled_loop, remainder_loop, read, Exit.value]

theorem sum_array_cpp_five {α : Type} [Add α] [Zero α] (a b c d e : α) :
    sum_array_cpp [a, b, c, d, e]
      = .ok (((((0 + a) + (0 + b)) + (0 + c)) + (0 + d)) + (0 + e)) := by
  simp [sum_array_cpp, run, n_unrolled, unrolled_loop, remainder_loop, read, Exit.value]

theorem sum_array_cpp_six {α : Type} [Add α] [Zero α] (a b c d e f : α) :
    sum_array_cpp [a, b, c, d, e, f]
      = .ok (((((0 + a) + (0 + b)) + (0 + c)) + (0 + d)) + ((0 + e) + f)) := by
  simp [sum_array_cpp, run, n_unrolled, unrolled_loop, remainder_loop, read, Exit.value]

/-- C13: for an arbitrary addition (associativity is not assumed) for which
`0.0` is a two-sided identity, `sum_array_cpp x` is the strictly sequential
left-to-right sum `((((0.0 + x[0]) + x[1]) + ...) + x[n-1])` for every
sequence of length `n ≤ 5`; so the two can differ only for `n ≥ 6`. -/
theorem sum_array_cpp_sequential_upto_five {α : Type} [Add α] [Zero α]
    (h0l : ∀ a : α, 0 + a = a) (h0r : ∀ a : α, a + 0 = a) (x : List α) :
    (x.length ≤ 5 → sum_array_cpp x = .ok (naive_sum x)) ∧
    (sum_array_cpp x ≠ .ok (naive_sum x) → 6 ≤ x.length) := by
  have key : x.length ≤ 5 → sum_array_cpp x = .ok (naive_sum x) := by
    intro hlen
    rcases x with _ | ⟨a, _ | ⟨b, _ | ⟨c, _ | ⟨d, _ | ⟨e, _ | ⟨f, r⟩⟩⟩⟩⟩⟩
    · rfl
    · rw [sum_array_cpp_one]
      simp only [naive_sum, List.foldl_cons, List.foldl_nil, h0l]
    · rw [sum_array_cpp_two]
      simp only [naive_sum, List.foldl_cons, List.foldl_nil, h0l]
    · rw [sum_array_cpp_three]
      simp only [naive_sum, List.foldl_cons, List.foldl_nil, h0l]
    · rw [sum_array_cpp_four]
      simp only [naive_sum, List.foldl_cons, List.foldl_nil, h0l, h0r]
    · rw [sum_array_cpp_five]
      simp only [naive_sum, List.foldl_cons, List.foldl_nil, h0l]
    · simp only [List.length_cons] at hlen
      omega
  refine ⟨key, ?_⟩
  intro hne
  by_contra hlt
  exact hne (key (by omega))

/-- Witness for C13 on a five-element input over the integers. -/
theorem sum_array_cpp_sequential_upto_five_witness :
    ((∀ a : Int, 0 + a = a) ∧ (∀ a : Int, a + 0 = a) ∧
      ([7, -2, 5, 11, 3] : List Int).length ≤ 5) ∧
    sum_array_cpp ([7, -2, 5, 11, 3] : List Int) = .ok (naive_sum [7, -2, 5, 11, 3]) ∧
    naive_sum ([7, -2, 5, 11, 3] : List Int) = 24 :=
  ⟨⟨Int.zero_add, Int.add_zero, by decide⟩,
    (sum_array_cpp_sequential_upto_five Int.zero_add Int.add_zero [7, -2, 5, 11, 3]).1
      (by decide),
    by decide⟩

/-- From six elements on the grouping shows: in binary64, on
`[2^53, 0, 0, 0, 1, 1]` the kernel returns `2^53 + (1 + 1) = 2^53 + 2`, the
sequential sum is `(2^53 + 1) + 1 = 2^53`. -/
theorem stride_grouping_differs_at_six :
    sum_array_cpp
        [F64.lit 9007199254740992 0, 0, 0, 0, F64.lit 1 0, F64.lit 1 0]
      = .ok (F64.lit 9007199254740994 0) ∧
    naive_sum [F64.lit 9007199254740992 0, 0, 0, 0, F64.lit 1 0, F64.lit 1 0]
      = F64.lit 9007199254740992 0 ∧
    F64.lit 9007199254740994 0 ≠ F64.lit 9007199254740992 0 := by
  refine ⟨?_, ?_, ?_⟩ <;> set_option maxRecDepth 4000 in decide

end SumArray
